import Mathlib

set_option maxRecDepth 40000

/-!
Verification of the bencode codec, metainfo deriver, peer-wire client and
piece downloader of a BitTorrent client written in Go
(cmd/mybittorrent/main.go).

Modelling conventions:
  - Go strings and byte slices are modelled as `List Nat` (one entry per byte).
  - Go's dynamically typed bencode values (interface with string / int /
    slice / map cases) are modelled as the tagged union `Bval`.
  - Go's map is an unordered hash map; a map value is modelled by its
    canonical representation `BEntries`: an association list kept sorted in
    ascending byte-lexicographic key order with unique keys.  Map assignment
    m at key k set to v is `entriesInsert k v`.  The Go encoder sorts the map
    keys with sort.Strings before emitting; on the canonical representation
    that sort is the identity, so the encoder emits entries in stored order.
  - Go run-time panics (index / slice out of range, failed type assertion)
    are modelled as distinguished error values, kept separate from the
    errors the Go code returns through its error results.
  - Recursive loops whose termination measure is not structural are given an
    explicit fuel parameter so that all definitions compute by kernel
    reduction; each wrapper supplies fuel that always suffices, and the
    `outOfFuel` marker is unreachable from the wrappers.
-/

deriving instance DecidableEq for Except

/-- Errors and panics of the Go program.  The first two are values returned
through Go error results; the two panic constructors model Go run-time
panics; readError stands for a failed network read; outOfFuel is the
internal fuel marker of the recursion wrappers. -/
inductive GoErr where
  | atoiError
  | unexpectedFormat
  | panicOOB
  | panicTypeAssert
  | readError
  | outOfFuel
deriving DecidableEq

/-- Bytes of an ASCII string literal. -/
def bs (s : String) : List Nat := s.data.map Char.toNat

/-- Big-endian decimal digits of a natural number, n in 0 .. 10 ^ fuel - 1
(empty for 0; the wrapper natToDec handles 0). -/
def natToDecGo : Nat → Nat → List Nat
  | 0, _ => []
  | f + 1, n => if n = 0 then [] else natToDecGo f (n / 10) ++ [n % 10 + 48]

/-- Decimal rendering of a natural number, as Go fmt with verb d prints it. -/
def natToDec (n : Nat) : List Nat := if n = 0 then [48] else natToDecGo (n + 1) n

/-- Decimal rendering of a Go int, as Go fmt with verb d prints it. -/
def intToDec (n : Int) : List Nat :=
  if n < 0 then 45 :: natToDec n.natAbs else natToDec n.toNat

/-- Accumulating decimal parser: consumes the whole list, failing on any
non-digit byte. -/
def parseDigitsAux (acc : Nat) : List Nat → Option Nat
  | [] => some acc
  | c :: cs => if 48 ≤ c ∧ c ≤ 57 then parseDigitsAux (acc * 10 + (c - 48)) cs else none

/-- Model of Go strconv.Atoi: optional sign, a nonempty run of digits making
up the whole input, and the int64 range check (out-of-range input makes
strconv return an error, which the caller propagates). -/
def atoi (s : List Nat) : Except Unit Int :=
  match s with
  | [] => .error ()
  | c :: rest =>
    if c = 43 then
      if rest = [] then .error ()
      else
        match parseDigitsAux 0 rest with
        | some n => if n ≤ 2 ^ 63 - 1 then .ok (n : Int) else .error ()
        | none => .error ()
    else if c = 45 then
      if rest = [] then .error ()
      else
        match parseDigitsAux 0 rest with
        | some n => if n ≤ 2 ^ 63 then .ok (-(n : Int)) else .error ()
        | none => .error ()
    else
      match parseDigitsAux 0 s with
      | some n => if n ≤ 2 ^ 63 - 1 then .ok (n : Int) else .error ()
      | none => .error ()

/-- Index of the first occurrence of byte c, as the scanning loops of
decodeBencode compute it (none when absent; the Go code then leaves the
index variable at its zero value, handled at each use site). -/
def firstIdxOf (c : Nat) : List Nat → Option Nat
  | [] => none
  | x :: xs => if x = c then some 0 else (firstIdxOf c xs).map (· + 1)

/-- Byte-lexicographic strict order on byte strings: the order of Go
sort.Strings and of Go string comparison. -/
def keyLt : List Nat → List Nat → Bool
  | [], [] => false
  | [], _ :: _ => true
  | _ :: _, [] => false
  | a :: as, b :: bs => decide (a < b) || (decide (a = b) && keyLt as bs)

mutual
/-- Bencode values: the tagged union behind Go interface values produced by
decodeBencode (string, int, list of values, map of string to value). -/
inductive Bval where
  | str : List Nat → Bval
  | int : Int → Bval
  | list : BList → Bval
  | dict : BEntries → Bval
deriving DecidableEq
/-- A Go slice of bencode values. -/
inductive BList where
  | nil : BList
  | cons : Bval → BList → BList
deriving DecidableEq
/-- Canonical representation of a Go map from byte strings to bencode
values: key-sorted (ascending, byte-lexicographic) association list with
unique keys. -/
inductive BEntries where
  | nil : BEntries
  | cons : List Nat → Bval → BEntries → BEntries
deriving DecidableEq
end

/-- Spine induction for the entry lists of a map representation (the
values are not recursed into). -/
theorem entSpineInd {motive : BEntries → Prop}
    (hnil : motive .nil)
    (hcons : ∀ k v rest, motive rest → motive (.cons k v rest)) :
    ∀ e, motive e
  | .nil => hnil
  | .cons k v rest => hcons k v rest (entSpineInd hnil hcons rest)

/-- Spine induction for Go slices of bencode values (the elements are not
recursed into). -/
theorem blistSpineInd {motive : BList → Prop}
    (hnil : motive .nil)
    (hcons : ∀ x rest, motive rest → motive (.cons x rest)) :
    ∀ e, motive e
  | .nil => hnil
  | .cons x rest => hcons x rest (blistSpineInd hnil hcons rest)

/-- Concatenation of Go slices of bencode values. -/
def blistAppend : BList → BList → BList
  | .nil, ys => ys
  | .cons x xs, ys => .cons x (blistAppend xs ys)

/-- Go map assignment m at key k set to v on the canonical representation:
sorted insert, replacing the binding when the key is already present. -/
def entriesInsert (k : List Nat) (v : Bval) : BEntries → BEntries
  | .nil => .cons k v .nil
  | .cons k' v' rest =>
    if keyLt k k' then .cons k v (.cons k' v' rest)
    else if k = k' then .cons k v rest
    else .cons k' v' (entriesInsert k v rest)

/-- Go map read m at key k (nil interface, modelled none, when absent). -/
def entriesLookup : BEntries → List Nat → Option Bval
  | .nil, _ => none
  | .cons k v rest, q => if k = q then some v else entriesLookup rest q

/-- The Go map built by assigning the pairs of l left to right into an empty
map: the map a Go program holds after those insertions, whatever their
order. -/
def mkGoMap (l : List (List Nat × Bval)) : BEntries :=
  l.foldl (fun acc kv => entriesInsert kv.1 kv.2 acc) .nil

/-- Keys of a canonical map representation, in stored order. -/
def entriesKeys : BEntries → List (List Nat)
  | .nil => []
  | .cons k _ rest => k :: entriesKeys rest

/-- Entry count of a canonical map representation. -/
def entriesLen : BEntries → Nat
  | .nil => 0
  | .cons _ _ rest => entriesLen rest + 1

/-- Element count of a Go slice of bencode values. -/
def blistLen : BList → Nat
  | .nil => 0
  | .cons _ xs => blistLen xs + 1

/-- Encoding of a byte string: its decimal length, a colon, the bytes
(Go fmt.Sprintf with pattern length, colon, string). -/
def bencodeBytes (s : List Nat) : List Nat := natToDec s.length ++ 58 :: s

/-- Encoding of an integer: the byte i, its decimal digits, the byte e. -/
def bencodeInt (n : Int) : List Nat := 105 :: (intToDec n ++ [101])

mutual
/-- Model of the Go function bencode: strings as length-colon-bytes, ints as
i digits e, lists as l children e in order, dictionaries as d entries e with
keys in ascending byte-lexicographic order (Go sorts the map keys with
sort.Strings; on the canonical map representation the stored order is
already that sorted order). -/
def bencode : Bval → List Nat
  | .str s => bencodeBytes s
  | .int n => bencodeInt n
  | .list xs => 108 :: (bencodeList xs ++ [101])
  | .dict m => 100 :: (bencodeEntries m ++ [101])
/-- Children of a list, encoded in original order and concatenated. -/
def bencodeList : BList → List Nat
  | .nil => []
  | .cons x xs => bencode x ++ bencodeList xs
/-- Entries of a dictionary, encoded as key then value and concatenated. -/
def bencodeEntries : BEntries → List Nat
  | .nil => []
  | .cons k v rest => bencodeBytes k ++ (bencode v ++ bencodeEntries rest)
end

/-- Tasks of the decoder: a decodeBencode call on s, the list-branch loop
over the remaining bytes s with the accumulated slice, or the
dictionary-branch loop over s with the pending key (empty when no key is
pending, exactly as the Go code tests key against the empty string) and the
accumulated map. -/
inductive DTask where
  | val : List Nat → DTask
  | lst : List Nat → BList → DTask
  | dct : List Nat → List Nat → BEntries → DTask

/-- Results of the decoder tasks: the decoded value, or the finished
accumulator of a loop, each with the consumed byte count the Go code
reports. -/
inductive DOut where
  | val : Bval → Nat → DOut
  | lst : BList → Nat → DOut
  | dct : BEntries → Nat → DOut
deriving DecidableEq

/-- One-for-one model of Go decodeBencode and its two inner loops.  The
first argument is recursion fuel (see the module comment); every recursive
call passes fuel minus one.  Branches returning outOfFuel after a recursive
call are unreachable: a task of each kind only ever produces the result of
the same kind. -/
def decodeGo : Nat → DTask → Except GoErr DOut
  | 0, _ => .error .outOfFuel
  | f + 1, .val s =>
    match s with
    | [] => .error .panicOOB
    | c :: _ =>
      if 48 ≤ c ∧ c ≤ 57 then
        let firstColonIndex := (firstIdxOf 58 s).getD 0
        match atoi (s.take firstColonIndex) with
        | .error _ => .error .atoiError
        | .ok len =>
          if len < 0 then .error .panicOOB
          else
            let untilIndex := firstColonIndex + 1 + len.toNat
            if untilIndex ≤ s.length then
              .ok (.val (.str ((s.drop (firstColonIndex + 1)).take len.toNat)) untilIndex)
            else .error .panicOOB
      else if c = 105 then
        let endIndex := (firstIdxOf 101 s).getD 0
        if endIndex = 0 then .error .panicOOB
        else
          match atoi ((s.drop 1).take (endIndex - 1)) with
          | .error _ => .error .atoiError
          | .ok n => .ok (.val (.int n) (endIndex + 1))
      else if c = 108 then
        match decodeGo f (.lst (s.drop 1) .nil) with
        | .error e => .error e
        | .ok (.lst acc n) => .ok (.val (.list acc) (n + 1))
        | .ok _ => .error .outOfFuel
      else if c = 100 then
        match decodeGo f (.dct (s.drop 1) [] .nil) with
        | .error e => .error e
        | .ok (.dct acc n) => .ok (.val (.dict acc) (n + 1))
        | .ok _ => .error .outOfFuel
      else .error .unexpectedFormat
  | f + 1, .lst s acc =>
    match s with
    | [] => .error .panicOOB
    | c :: _ =>
      if c = 101 then .ok (.lst acc 0)
      else
        match decodeGo f (.val s) with
        | .error e => .error e
        | .ok (.val v nextIndex) =>
          if nextIndex ≤ s.length then
            match decodeGo f (.lst (s.drop nextIndex) (blistAppend acc (.cons v .nil))) with
            | .error e => .error e
            | .ok (.lst acc' n) => .ok (.lst acc' (nextIndex + n))
            | .ok _ => .error .outOfFuel
          else .error .panicOOB
        | .ok _ => .error .outOfFuel
  | f + 1, .dct s key acc =>
    match s with
    | [] => .error .panicOOB
    | c :: _ =>
      if c = 101 then .ok (.dct acc 0)
      else
        match decodeGo f (.val s) with
        | .error e => .error e
        | .ok (.val v nextIndex) =>
          if nextIndex ≤ s.length then
            if key = [] then
              match v with
              | .str k =>
                match decodeGo f (.dct (s.drop nextIndex) k acc) with
                | .error e => .error e
                | .ok (.dct acc' n) => .ok (.dct acc' (nextIndex + n))
                | .ok _ => .error .outOfFuel
              | _ => .error .panicTypeAssert
            else
              match decodeGo f (.dct (s.drop nextIndex) [] (entriesInsert key v acc)) with
              | .error e => .error e
              | .ok (.dct acc' n) => .ok (.dct acc' (nextIndex + n))
              | .ok _ => .error .outOfFuel
          else .error .panicOOB
        | .ok _ => .error .outOfFuel

/-- Go decodeBencode on a byte string: the decoded value and the byte count
the Go code reports as consumed.  The fuel 2 times length plus 2 bounds the
recursion depth of every terminating run. -/
def decodeBencode (s : List Nat) : Except GoErr (Bval × Nat) :=
  match decodeGo (2 * s.length + 2) (.val s) with
  | .ok (.val v n) => .ok (v, n)
  | .error e => .error e
  | .ok _ => .error .outOfFuel

example : decodeBencode (bs "5:hello") = .ok (.str (bs "hello"), 7) := by decide
example : decodeBencode (bs "10:hello12345") = .ok (.str (bs "hello12345"), 13) := by decide
example : decodeBencode (bs "i-52e") = .ok (.int (-52), 5) := by decide
example : decodeBencode (bs "l5:helloi52ee") =
    .ok (.list (.cons (.str (bs "hello")) (.cons (.int 52) .nil)), 12) := by decide
example : decodeBencode (bs "d3:foo3:bar5:helloi52ee") =
    .ok (.dict (.cons (bs "foo") (.str (bs "bar"))
      (.cons (bs "hello") (.int 52) .nil)), 22) := by decide
example : decodeBencode (bs "5:hi") = .error .panicOOB := by decide
example : decodeBencode (bs "i52") = .error .panicOOB := by decide
example : decodeBencode (bs "l5:helloe") =
    .ok (.list (.cons (.str (bs "hello")) .nil), 8) := by decide
example : bencode (.dict (.cons (bs "foo") (.str (bs "bar"))
    (.cons (bs "hello") (.int 52) .nil))) = bs "d3:foo3:bar5:helloi52ee" := by decide

/-! ## SHA-1 (crypto/sha1), over byte lists -/

/-- Left rotation of a 32-bit word. -/
def rotl32 (n w : Nat) : Nat := ((w <<< n) ||| (w >>> (32 - n))) % 2 ^ 32

/-- The SHA-1 round constants. -/
def sha1K (t : Nat) : Nat :=
  if t < 20 then 1518500249 else if t < 40 then 1859775393
  else if t < 60 then 2400959708 else 3395469782

/-- The SHA-1 round functions. -/
def sha1F (t b c d : Nat) : Nat :=
  if t < 20 then (b &&& c) ||| (((2 ^ 32 - 1) - b) &&& d)
  else if t < 40 then (b ^^^ c) ^^^ d
  else if t < 60 then ((b &&& c) ||| (b &&& d)) ||| (c &&& d)
  else (b ^^^ c) ^^^ d

/-- Big-endian 32-bit word from four bytes. -/
def beWord : List Nat → Nat
  | [b0, b1, b2, b3] => ((b0 * 256 + b1) * 256 + b2) * 256 + b3
  | _ => 0

/-- The four big-endian bytes of a 32-bit word. -/
def wordBytes (w : Nat) : List Nat :=
  [w / 2 ^ 24 % 256, w / 2 ^ 16 % 256, w / 2 ^ 8 % 256, w % 256]

/-- The eight big-endian bytes of a 64-bit length field. -/
def beBytes64 (n : Nat) : List Nat :=
  [n / 2 ^ 56 % 256, n / 2 ^ 48 % 256, n / 2 ^ 40 % 256, n / 2 ^ 32 % 256,
   n / 2 ^ 24 % 256, n / 2 ^ 16 % 256, n / 2 ^ 8 % 256, n % 256]

/-- SHA-1 padding: the 128 byte, zeros to 56 mod 64, the bit length. -/
def sha1Pad (msg : List Nat) : List Nat :=
  msg ++ 128 :: (List.replicate ((119 - msg.length % 64) % 64) 0 ++ beBytes64 (8 * msg.length))

/-- The 80-word message schedule of one 64-byte chunk. -/
def sha1Schedule (chunk : List Nat) : List Nat :=
  let w16 := (List.range 16).map (fun i => beWord ((chunk.drop (4 * i)).take 4))
  (List.range 64).foldl
    (fun w _ =>
      w ++ [rotl32 1 ((((w.getD (w.length - 3) 0) ^^^ (w.getD (w.length - 8) 0)) ^^^
        (w.getD (w.length - 14) 0)) ^^^ (w.getD (w.length - 16) 0))]) w16

/-- The 80 rounds of SHA-1 compression on one chunk, then the feed-forward
addition into the running state. -/
def sha1Rounds (chunk : List Nat) (h : Nat × Nat × Nat × Nat × Nat) :
    Nat × Nat × Nat × Nat × Nat :=
  let fin := ((sha1Schedule chunk).enum).foldl
    (fun st p =>
      let temp := (rotl32 5 st.1 + sha1F p.1 st.2.1 st.2.2.1 st.2.2.2.1 +
        st.2.2.2.2 + sha1K p.1 + p.2) % 2 ^ 32
      (temp, st.1, rotl32 30 st.2.1, st.2.2.1, st.2.2.2.1)) h
  ((h.1 + fin.1) % 2 ^ 32, (h.2.1 + fin.2.1) % 2 ^ 32, (h.2.2.1 + fin.2.2.1) % 2 ^ 32,
    (h.2.2.2.1 + fin.2.2.2.1) % 2 ^ 32, (h.2.2.2.2 + fin.2.2.2.2) % 2 ^ 32)

/-- Fueled traversal of the padded message, 64 bytes at a time. -/
def sha1ChunksGo : Nat → List Nat → Nat × Nat × Nat × Nat × Nat →
    Nat × Nat × Nat × Nat × Nat
  | 0, _, h => h
  | _ + 1, [], h => h
  | f + 1, msg, h => sha1ChunksGo f (msg.drop 64) (sha1Rounds (msg.take 64) h)

/-- SHA-1 digest (20 bytes) of a byte list: model of Go sha1.Sum. -/
def sha1Bytes (msg : List Nat) : List Nat :=
  let padded := sha1Pad msg
  let h := sha1ChunksGo (padded.length + 1) padded
    (1732584193, 4023233417, 2562383102, 271733878, 3285377520)
  wordBytes h.1 ++ wordBytes h.2.1 ++ wordBytes h.2.2.1 ++
    wordBytes h.2.2.2.1 ++ wordBytes h.2.2.2.2

/-! ## Metainfo deriver (parseToInfo) -/

/-- Lowercase hex digit byte of a value below 16. -/
def hexDigit (n : Nat) : Nat := if n < 10 then n + 48 else n + 87

/-- The two lowercase hex digit bytes of one byte, as Go fmt with verb x. -/
def hexByte (b : Nat) : List Nat := [hexDigit (b / 16), hexDigit (b % 16)]

/-- Lowercase hex rendering of a byte string, as Go fmt with verb x. -/
def hexStr (s : List Nat) : List Nat := (s.map hexByte).flatten

/-- Slice width of one SHA-1 digest in the piece table. -/
def eachPieceSize : Nat := 20

/-- The loop building Info.PieceHashes: for each 20-byte slice of the piece
table, its hex rendering and a newline, concatenated.  Go slices
pieceStr at i to i plus 20, which panics when fewer than 20 bytes remain. -/
def pieceHashesGo : Nat → List Nat → Except GoErr (List Nat)
  | 0, _ => .error .outOfFuel
  | f + 1, s =>
    if s.length = 0 then .ok []
    else if s.length < eachPieceSize then .error .panicOOB
    else
      match pieceHashesGo f (s.drop eachPieceSize) with
      | .ok rest => .ok (hexStr (s.take eachPieceSize) ++ 10 :: rest)
      | .error e => .error e

/-- Info.PieceHashes from the raw piece table bytes. -/
def pieceHashesOf (pieces : List Nat) : Except GoErr (List Nat) :=
  pieceHashesGo (pieces.length + 1) pieces

/-- The Info structure parseToInfo fills. -/
structure Info where
  trackerURL : List Nat
  length : Int
  infoHash : List Nat
  pieceLength : Int
  pieceHashes : List Nat
deriving DecidableEq

/-- Model of Go parseToInfo on the torrent file bytes (the file read itself
is the external boundary).  Each Go type assertion that can fail on a
missing key or a wrongly typed value is a panicTypeAssert, in the evaluation
order of the Go code: the info dictionary, then the announce, length and
piece length fields of the struct literal, then the bencoded info dictionary
is hashed, then the pieces string is sliced into the hash table. -/
def parseToInfo (content : List Nat) : Except GoErr Info :=
  match decodeBencode content with
  | .error e => .error e
  | .ok (v, _) =>
    match v with
    | .dict top =>
      match entriesLookup top (bs "info") with
      | some (.dict metaInfo) =>
        match entriesLookup top (bs "announce") with
        | some (.str announce) =>
          match entriesLookup metaInfo (bs "length") with
          | some (.int len) =>
            match entriesLookup metaInfo (bs "piece length") with
            | some (.int plen) =>
              let infoHash := sha1Bytes (bencode (.dict metaInfo))
              match entriesLookup metaInfo (bs "pieces") with
              | some (.str pieceStr) =>
                match pieceHashesOf pieceStr with
                | .ok ph => .ok ⟨announce, len, infoHash, plen, ph⟩
                | .error e => .error e
              | _ => .error .panicTypeAssert
            | _ => .error .panicTypeAssert
          | _ => .error .panicTypeAssert
        | _ => .error .panicTypeAssert
      | _ => .error .panicTypeAssert
    | _ => .error .panicTypeAssert

/-- The decoded info sub-dictionary of a torrent file, when present. -/
def infoDictOf (content : List Nat) : Option Bval :=
  match decodeBencode content with
  | .ok (.dict top, _) => entriesLookup top (bs "info")
  | _ => none

/-- The info-hash parseToInfo derives, when it succeeds. -/
def infoHashOf (content : List Nat) : Except GoErr (List Nat) :=
  (parseToInfo content).map Info.infoHash

/-! ## Peer wire client -/

/-- Length of the pstrlen-style length byte field written before the
protocol name. -/
def protocolStrLengthByte : Nat := 19

/-- The 19 protocol name bytes. -/
def protocolStr : List Nat := bs "BitTorrent protocol"

/-- The eight bytes the Go constant reservedBytesStr holds: the ASCII
characters of the string of eight zeros (byte 48 each), not zero bytes. -/
def reservedBytesStr : List Nat := bs "00000000"

/-- The fixed 20-byte local peer identifier. -/
def peerID : List Nat := bs "00112233445566778899"

/-- The handshake message the Go code writes: length byte, protocol name,
the reservedBytesStr constant, the info-hash, the local peer id. -/
def handshakeMsg (infoHash : List Nat) : List Nat :=
  protocolStrLengthByte :: (protocolStr ++ reservedBytesStr ++ infoHash ++ peerID)

/-- The remote peer id the Go handshake returns: the final 20 bytes of the
68-byte reply buffer (buf from len of handshake minus len of peerID on). -/
def handshakeRemoteID (infoHash reply : List Nat) : List Nat :=
  reply.drop ((handshakeMsg infoHash).length - peerID.length)

/-- Byte width of the message length prefix. -/
def messageLengthLen : Nat := 4

/-- Byte width of the message id. -/
def messageIDLen : Nat := 1

/-- Big-endian 32-bit read of the four length prefix bytes. -/
def beUint32 (b0 b1 b2 b3 : Nat) : Nat := ((b0 * 256 + b1) * 256 + b2) * 256 + b3

/-- The payload buffer size waitPeerMessage allocates: messageLength minus
messageIDLen computed in Go uint32 arithmetic, so the subtraction wraps
modulo 2 to the 32. -/
def payloadBufLen (messageLength : Nat) : Nat :=
  (messageLength + 2 ^ 32 - messageIDLen) % 2 ^ 32

/-- Model of the Go waitPeerMessage loop over an incoming byte stream: read
four length bytes, one id byte, then a payload of payloadBufLen bytes; if
the id is not the expected one the payload is discarded and the loop
repeats.  A read past the end of the finite stream is a readError. -/
def waitPeerMessageGo : Nat → List Nat → Nat → Except GoErr (List Nat)
  | 0, _, _ => .error .outOfFuel
  | f + 1, stream, expid =>
    match stream with
    | b0 :: b1 :: b2 :: b3 :: rest =>
      match rest with
      | idByte :: rest2 =>
        let n := payloadBufLen (beUint32 b0 b1 b2 b3)
        if n ≤ rest2.length then
          if idByte = expid then .ok (rest2.take n)
          else waitPeerMessageGo f (rest2.drop n) expid
        else .error .readError
      | [] => .error .readError
    | _ => .error .readError

/-- waitPeerMessage on a finite stream. -/
def waitPeerMessage (stream : List Nat) (expid : Nat) : Except GoErr (List Nat) :=
  waitPeerMessageGo (stream.length + 1) stream expid

/-- The frame sendPeerMessage writes: 4-byte big-endian length of id plus
payload, the id byte, the payload. -/
def sendPeerMessageFrame (id : Nat) (payload : List Nat) : List Nat :=
  let n := messageIDLen + payload.length
  [n / 2 ^ 24 % 256, n / 2 ^ 16 % 256, n / 2 ^ 8 % 256, n % 256] ++ id :: payload

/-! ## Piece downloader -/

/-- The fixed request size of the download loop. -/
def blockSize : Nat := 16 * 1024

/-- The request loop of the download command: offset starts at zero and is
advanced by blockSize at the top of each iteration, before the request
payload is built, so the first request already begins at blockSize; every
request carries length blockSize; the loop sends one request per iteration
and stops after sending the request whose begin offset reached or passed
pieceLength; count is incremented only when the loop continues.  Returns
the list of (begin, length) fields of the requests sent, and the final
count, which is the number of piece messages the drain loop then waits
for. -/
def requestLoopGo : Nat → Int → Int → Nat → List (Int × Nat) → List (Int × Nat) × Nat
  | 0, _, _, count, acc => (acc, count)
  | f + 1, pieceLength, offset, count, acc =>
    let offset' := offset + blockSize
    let acc' := acc ++ [(offset', blockSize)]
    if pieceLength ≤ offset' then (acc', count)
    else requestLoopGo f pieceLength offset' (count + 1) acc'

/-- The request loop started as the Go code starts it. -/
def requestLoop (pieceLength : Int) : List (Int × Nat) × Nat :=
  requestLoopGo (pieceLength.toNat + 1) pieceLength 0 0 []

example : sha1Bytes [] =
    [218, 57, 163, 238, 94, 107, 75, 13, 50, 85,
     191, 239, 149, 96, 24, 144, 175, 216, 7, 9] := by decide

/-! ## Claim C1: the block-request loop -/

/-- C1 (refuted; the code is at fault): the claim says the block requests
cover the interval from 0 to pieceLength starting at begin offset 0, and
that the downloader waits for exactly as many piece messages as requests
were sent.  In the code the offset is advanced before the first request is
built, so for a 16384-byte piece the single request sent begins at byte
16384 (the piece itself is never requested and byte range 0 to 16383 is
never covered), while count, the number of piece messages the drain loop
waits for, is 0 for 1 request sent.  For a 40000-byte piece three requests
are sent at begins 16384, 32768, 49152 (again not covering 0 to 16383 and
over-running the piece end, each with fixed length 16384) while only 2
piece messages are awaited. -/
theorem requestLoop_skips_first_block_and_undercounts :
    requestLoop 16384 = ([(16384, 16384)], 0) ∧
    requestLoop 40000 = ([(16384, 16384), (32768, 16384), (49152, 16384)], 2) := by
  decide

/-! ## Claim C3: malformed bencode input -/

/-- C3 (refuted; the code is at fault): the claim says truncated
length-prefixed strings, unterminated integers and unterminated lists all
fail with a returned MalformedInput error and never cause an out-of-bounds
access.  The code instead panics with an out-of-bounds slice on the
truncated string 5:hi and on the unterminated integer i52, and on a truly
unterminated list such as l5:hello; the claim's third example l5:helloe is
in fact well-formed and decodes successfully to the one-element list hello
with reported consumed count 8. -/
theorem decode_malformed_inputs_panic :
    decodeBencode (bs "5:hi") = .error .panicOOB ∧
    decodeBencode (bs "i52") = .error .panicOOB ∧
    decodeBencode (bs "l5:hello") = .error .panicOOB ∧
    decodeBencode (bs "l5:helloe") = .ok (.list (.cons (.str (bs "hello")) .nil), 8) := by
  decide

/-! ## Claim C4: literal decode cases -/

/-- C4 counterexample: decode of 5:hello consumes 7 bytes, not the 6 the
claim states. -/
theorem decode_five_hello_not_six :
    decodeBencode (bs "5:hello") ≠ .ok (.str (bs "hello"), 6) := by decide

/-- C4 (amended): the decoded values are as claimed, but the reported
consumed byte counts are 7 for 5:hello (the whole input, not 6), 5 for
i-52e (as claimed), 12 for l5:helloi52ee and 22 for d3:foo3:bar5:helloi52ee
(the code does not count the leading l or d byte of a list or dictionary,
so the container cases under-report by one). -/
theorem decode_literal_cases :
    decodeBencode (bs "5:hello") = .ok (.str (bs "hello"), 7) ∧
    decodeBencode (bs "i-52e") = .ok (.int (-52), 5) ∧
    decodeBencode (bs "l5:helloi52ee") =
      .ok (.list (.cons (.str (bs "hello")) (.cons (.int 52) .nil)), 12) ∧
    decodeBencode (bs "d3:foo3:bar5:helloi52ee") =
      .ok (.dict (.cons (bs "foo") (.str (bs "bar"))
        (.cons (bs "hello") (.int 52) .nil)), 22) := by
  decide

/-! ## Claim C5: handshake framing -/

/-- C5 counterexample: the eight bytes following the protocol name are not
zero bytes (they are the ASCII digit zero, byte 48), refuting the claimed
layout at any concrete info-hash. -/
theorem handshake_reserved_bytes_not_zero :
    ((handshakeMsg (List.replicate 20 0)).drop 20).take 8 ≠ List.replicate 8 0 := by
  decide

/-- C5 (amended): for a 20-byte info-hash the handshake message is exactly
68 bytes: one length byte 19, the 19 protocol name bytes, eight reserved
bytes that each hold ASCII digit zero (byte 48, not the zero byte the claim
states), the 20 info-hash bytes, and the 20-byte local peer id; the remote
peer id is the final 20 bytes of the 68-byte reply. -/
theorem handshake_layout (ih : List Nat) (hih : ih.length = 20) :
    (handshakeMsg ih).length = 68 ∧
    (handshakeMsg ih).take 1 = [19] ∧
    ((handshakeMsg ih).drop 1).take 19 = bs "BitTorrent protocol" ∧
    ((handshakeMsg ih).drop 20).take 8 = List.replicate 8 48 ∧
    ((handshakeMsg ih).drop 28).take 20 = ih ∧
    (handshakeMsg ih).drop 48 = peerID ∧
    ∀ reply : List Nat, reply.length = 68 →
      handshakeRemoteID ih reply = reply.drop 48 ∧ (handshakeRemoteID ih reply).length = 20 := by
  have hps : protocolStr.length = 19 := by decide
  have hrs : reservedBytesStr.length = 8 := by decide
  have hpid : peerID.length = 20 := by decide
  have h20 : ((19 : Nat) :: protocolStr).length = 20 := by decide
  have h28 : (((19 : Nat) :: protocolStr) ++ reservedBytesStr).length = 28 := by decide
  have h1 : handshakeMsg ih = ((19 : Nat) :: protocolStr) ++ (reservedBytesStr ++ (ih ++ peerID)) := by
    simp [handshakeMsg, protocolStrLengthByte]
  have h2 : handshakeMsg ih = (((19 : Nat) :: protocolStr) ++ reservedBytesStr) ++ (ih ++ peerID) := by
    simp [handshakeMsg, protocolStrLengthByte]
  have h48 : ((((19 : Nat) :: protocolStr) ++ reservedBytesStr) ++ ih).length = 48 := by
    simp [hih, hps, hrs]
  have h3 : handshakeMsg ih = ((((19 : Nat) :: protocolStr) ++ reservedBytesStr) ++ ih) ++ peerID := by
    simp [handshakeMsg, protocolStrLengthByte]
  have hlen : (handshakeMsg ih).length = 68 := by
    rw [h1]
    simp [hps, hrs, hpid, hih]
  refine ⟨hlen, ?_, ?_, ?_, ?_, ?_, ?_⟩
  · rw [h1, List.cons_append]
    simp
  · rw [h1, List.cons_append, List.drop_succ_cons, List.drop_zero, List.take_left' hps]
    rfl
  · rw [h1, List.drop_left' h20, List.take_left' hrs]
    decide
  · rw [h2, List.drop_left' h28, List.take_left' hih]
  · rw [h3, List.drop_left' h48]
  · intro reply hreply
    constructor
    · unfold handshakeRemoteID
      rw [hlen, hpid]
    · unfold handshakeRemoteID
      rw [hlen, hpid, List.length_drop, hreply]

/-- C5 witness: the amended layout at a concrete info-hash. -/
theorem handshake_layout_witness :
    (List.replicate 20 7).length = 20 ∧ (handshakeMsg (List.replicate 20 7)).length = 68 :=
  ⟨by decide, (handshake_layout (List.replicate 20 7) (by decide)).1⟩

/-! ## Claim C10: keep-alive handling in the message wait loop -/

/-- C10: the payload buffer size of waitPeerMessage is the length prefix
minus one computed in wrapping 32-bit arithmetic, so a positive prefix L
yields L minus 1, while the zero-length keep-alive prefix yields
4294967295; the keep-alive frame is therefore not skipped: the loop tries
to read a 4294967295-byte payload, which fails on every stream holding
fewer than that many remaining bytes. -/
theorem keepalive_payload_size :
    payloadBufLen 0 = 4294967295 ∧
    (∀ L, 0 < L → L < 2 ^ 32 → payloadBufLen L = L - 1) ∧
    (∀ (rest : List Nat) (expid : Nat), rest.length < 4294967295 →
      waitPeerMessage (0 :: 0 :: 0 :: 0 :: rest) expid = .error .readError) := by
  refine ⟨by decide, fun L h1 h2 => ?_, fun rest expid h => ?_⟩
  · unfold payloadBufLen messageIDLen
    omega
  · show waitPeerMessageGo ((0 :: 0 :: 0 :: 0 :: rest).length + 1) _ _ = _
    have hlen : (0 :: 0 :: 0 :: 0 :: rest).length + 1 = rest.length + 4 + 1 := by
      simp
    rw [hlen]
    cases rest with
    | nil => rfl
    | cons idByte rest2 =>
      have hn : payloadBufLen (beUint32 0 0 0 0) = 4294967295 := by decide
      have hle : ¬ payloadBufLen (beUint32 0 0 0 0) ≤ rest2.length := by
        rw [hn]
        simp at h
        omega
      simp [waitPeerMessageGo, hle]

/-- C10 witness: the wrap-around size at prefix 5 and the failing read on a
concrete keep-alive frame. -/
theorem keepalive_payload_size_witness :
    payloadBufLen 5 = 4 ∧ waitPeerMessage [0, 0, 0, 0] 7 = .error .readError :=
  ⟨keepalive_payload_size.2.1 5 (by decide) (by decide),
   keepalive_payload_size.2.2 [] 7 (by decide)⟩

/-! ## Claim C6: canonical dictionary encoding -/

theorem keyLt_irrefl (a : List Nat) : keyLt a a = false := by
  induction a with
  | nil => rfl
  | cons x xs ih => simp [keyLt, ih]

theorem keyLt_trans : ∀ a b c : List Nat, keyLt a b = true → keyLt b c = true →
    keyLt a c = true := by
  intro a
  induction a with
  | nil =>
    intro b c hab hbc
    cases b with
    | nil => simp [keyLt] at hab
    | cons y ys =>
      cases c with
      | nil => simp [keyLt] at hbc
      | cons z zs => simp [keyLt]
  | cons x xs ih =>
    intro b c hab hbc
    cases b with
    | nil => simp [keyLt] at hab
    | cons y ys =>
      cases c with
      | nil => simp [keyLt] at hbc
      | cons z zs =>
        simp only [keyLt, Bool.or_eq_true, Bool.and_eq_true, decide_eq_true_eq] at hab hbc ⊢
        rcases hab with h1 | ⟨h1, h1'⟩ <;> rcases hbc with h2 | ⟨h2, h2'⟩
        · exact Or.inl (h1.trans h2)
        · exact Or.inl (h2 ▸ h1)
        · exact Or.inl (h1 ▸ h2)
        · exact Or.inr ⟨h1.trans h2, ih ys zs h1' h2'⟩

theorem keyLt_conn : ∀ a b : List Nat, keyLt a b = false → keyLt b a = false → a = b := by
  intro a
  induction a with
  | nil =>
    intro b h1 h2
    cases b with
    | nil => rfl
    | cons y ys => simp [keyLt] at h1
  | cons x xs ih =>
    intro b h1 h2
    cases b with
    | nil => simp [keyLt] at h2
    | cons y ys =>
      simp only [keyLt, Bool.or_eq_false_iff, Bool.and_eq_false_iff, decide_eq_false_iff_not,
        Bool.not_eq_true] at h1 h2
      obtain ⟨hxy, h1'⟩ := h1
      obtain ⟨hyx, h2'⟩ := h2
      have heq : x = y := by omega
      subst heq
      rcases h1' with h | h
      · exact absurd rfl h
      · rcases h2' with h' | h'
        · exact absurd rfl h'
        · rw [ih ys h h']

theorem keyLt_asymm (a b : List Nat) (h : keyLt a b = true) : keyLt b a = false := by
  cases hq : keyLt b a with
  | false => rfl
  | true =>
    have := keyLt_trans a b a h hq
    rw [keyLt_irrefl] at this
    cases this

/-- Strict ascending key order of a canonical map representation: every
entry key is byte-lexicographically below all later keys. -/
def entSorted : BEntries → Prop
  | .nil => True
  | .cons k _ rest => (∀ k' ∈ entriesKeys rest, keyLt k k' = true) ∧ entSorted rest

/-- Membership of a key-value binding in a map representation. -/
def entMem (x : List Nat × Bval) : BEntries → Prop
  | .nil => False
  | .cons k v rest => x = (k, v) ∨ entMem x rest

theorem entriesKeys_insert (k : List Nat) (v : Bval) (e : BEntries) :
    ∀ q, q ∈ entriesKeys (entriesInsert k v e) ↔ q = k ∨ q ∈ entriesKeys e := by
  induction e using entSpineInd with
  | hnil => intro q; simp [entriesInsert, entriesKeys]
  | hcons k' v' rest ih =>
    intro q
    rw [entriesInsert]
    by_cases hlt : keyLt k k' = true
    · rw [if_pos hlt]
      simp [entriesKeys]
    · rw [if_neg hlt]
      by_cases heq : k = k'
      · rw [if_pos heq]
        subst heq
        simp [entriesKeys]
      · rw [if_neg heq]
        simp [entriesKeys, ih q]
        tauto

theorem entSorted_insert (k : List Nat) (v : Bval) (e : BEntries) (he : entSorted e) :
    entSorted (entriesInsert k v e) := by
  induction e using entSpineInd with
  | hnil => simp [entriesInsert, entSorted, entriesKeys]
  | hcons k' v' rest ih =>
    obtain ⟨hall, hrest⟩ := he
    rw [entriesInsert]
    by_cases hlt : keyLt k k' = true
    · rw [if_pos hlt]
      refine ⟨?_, hall, hrest⟩
      intro q hq
      simp only [entriesKeys, List.mem_cons] at hq
      rcases hq with rfl | hq
      · exact hlt
      · exact keyLt_trans _ _ _ hlt (hall q hq)
    · rw [if_neg hlt]
      by_cases heq : k = k'
      · rw [if_pos heq]
        subst heq
        exact ⟨hall, hrest⟩
      · rw [if_neg heq]
        have hk'k : keyLt k' k = true := by
          cases hq : keyLt k' k with
          | true => rfl
          | false =>
            exact absurd (keyLt_conn k k' (by simpa using hlt) hq) heq
        refine ⟨?_, ih hrest⟩
        intro q hq
        rw [entriesKeys_insert] at hq
        rcases hq with rfl | hq
        · exact hk'k
        · exact hall q hq

theorem entMem_insert_fresh (k : List Nat) (v : Bval) (e : BEntries)
    (hk : k ∉ entriesKeys e) :
    ∀ x, entMem x (entriesInsert k v e) ↔ x = (k, v) ∨ entMem x e := by
  induction e using entSpineInd with
  | hnil => intro x; simp [entriesInsert, entMem]
  | hcons k' v' rest ih =>
    intro x
    have hkk' : k ≠ k' := by
      simp only [entriesKeys, List.mem_cons] at hk
      tauto
    have hkrest : k ∉ entriesKeys rest := by
      simp only [entriesKeys, List.mem_cons] at hk
      tauto
    rw [entriesInsert]
    by_cases hlt : keyLt k k' = true
    · rw [if_pos hlt]
      simp only [entMem]
    · rw [if_neg hlt, if_neg hkk']
      simp only [entMem, ih hkrest]
      tauto

theorem entriesKeys_insert_perm (k : List Nat) (v : Bval) (e : BEntries)
    (hk : k ∉ entriesKeys e) :
    (entriesKeys (entriesInsert k v e)).Perm (k :: entriesKeys e) := by
  induction e using entSpineInd with
  | hnil => simp [entriesInsert, entriesKeys]
  | hcons k' v' rest ih =>
    have hkk' : k ≠ k' := by
      simp only [entriesKeys, List.mem_cons] at hk
      tauto
    have hkrest : k ∉ entriesKeys rest := by
      simp only [entriesKeys, List.mem_cons] at hk
      tauto
    rw [entriesInsert]
    by_cases hlt : keyLt k k' = true
    · rw [if_pos hlt]
      exact List.Perm.refl _
    · rw [if_neg hlt, if_neg hkk']
      show (k' :: entriesKeys (entriesInsert k v rest)).Perm (k :: k' :: entriesKeys rest)
      exact ((ih hkrest).cons k').trans (List.Perm.swap k k' (entriesKeys rest))

theorem entMem_key : ∀ (e : BEntries) (x : List Nat × Bval), entMem x e →
    x.1 ∈ entriesKeys e := by
  intro e
  induction e using entSpineInd with
  | hnil => intro x hx; cases hx
  | hcons k v rest ih =>
    intro x hx
    rcases hx with rfl | hx
    · simp [entriesKeys]
    · simp only [entriesKeys, List.mem_cons]
      exact Or.inr (ih x hx)

theorem entSorted_ext : ∀ e1 e2 : BEntries, entSorted e1 → entSorted e2 →
    (∀ x, entMem x e1 ↔ entMem x e2) → e1 = e2 := by
  intro e1
  induction e1 using entSpineInd with
  | hnil =>
    intro e2 _ _ hmem
    induction e2 using entSpineInd with
    | hnil => rfl
    | hcons k v rest _ => exact absurd ((hmem (k, v)).2 (Or.inl rfl)) (fun h => h)
  | hcons k1 v1 r1 ih =>
    intro e2 h1 h2 hmem
    induction e2 using entSpineInd with
    | hnil => exact absurd ((hmem (k1, v1)).1 (Or.inl rfl)) (fun h => h)
    | hcons k2 v2 r2 _ =>
      obtain ⟨hall1, hr1⟩ := h1
      obtain ⟨hall2, hr2⟩ := h2
      have hm1 : entMem (k1, v1) (.cons k2 v2 r2) := (hmem _).1 (Or.inl rfl)
      have hm2 : entMem (k2, v2) (.cons k1 v1 r1) := (hmem _).2 (Or.inl rfl)
      have hhead : (k1, v1) = ((k2, v2) : List Nat × Bval) := by
        rcases hm1 with h | h
        · exact h
        · rcases hm2 with h' | h'
          · exact h'.symm
          · have hk1 : keyLt k2 k1 = true := hall2 _ (entMem_key _ _ h)
            have hk2 : keyLt k1 k2 = true := hall1 _ (entMem_key _ _ h')
            rw [keyLt_asymm _ _ hk2] at hk1
            cases hk1
      injection hhead with hk hv
      subst hk
      subst hv
      have htails : ∀ x, entMem x r1 ↔ entMem x r2 := by
        intro x
        constructor
        · intro hx
          rcases (hmem x).1 (Or.inr hx) with rfl | hx2
          · have := hall1 _ (entMem_key _ _ hx)
            rw [keyLt_irrefl] at this
            cases this
          · exact hx2
        · intro hx
          rcases (hmem x).2 (Or.inr hx) with rfl | hx2
          · have := hall2 _ (entMem_key _ _ hx)
            rw [keyLt_irrefl] at this
            cases this
          · exact hx2
      rw [ih r2 hr1 hr2 htails]

theorem mkGoMap_go_sorted : ∀ (l : List (List Nat × Bval)) (acc : BEntries),
    entSorted acc → entSorted (l.foldl (fun a kv => entriesInsert kv.1 kv.2 a) acc) := by
  intro l
  induction l with
  | nil => intro acc h; exact h
  | cons kv rest ih =>
    intro acc h
    exact ih _ (entSorted_insert kv.1 kv.2 acc h)

theorem mkGoMap_go_mem : ∀ (l : List (List Nat × Bval)) (acc : BEntries),
    (entriesKeys acc ++ l.map Prod.fst).Nodup →
    ∀ x, entMem x (l.foldl (fun a kv => entriesInsert kv.1 kv.2 a) acc) ↔
      entMem x acc ∨ x ∈ l := by
  intro l
  induction l with
  | nil =>
    intro acc h x
    simp
  | cons kv rest ih =>
    intro acc h x
    obtain ⟨k, v⟩ := kv
    have hk : k ∉ entriesKeys acc := by
      rw [List.nodup_append] at h
      intro hmem
      exact h.2.2 hmem (by simp)
    have hperm : (entriesKeys (entriesInsert k v acc) ++ rest.map Prod.fst).Perm
        (entriesKeys acc ++ ((k, v) :: rest).map Prod.fst) := by
      refine ((entriesKeys_insert_perm k v acc hk).append_right _).trans ?_
      simp only [List.map_cons, List.cons_append]
      exact (List.perm_middle).symm
    have hnd' : (entriesKeys (entriesInsert k v acc) ++ rest.map Prod.fst).Nodup :=
      hperm.nodup_iff.2 h
    simp only [List.foldl_cons]
    rw [ih _ hnd' x, entMem_insert_fresh k v acc hk x]
    simp only [List.mem_cons]
    tauto

/-- Two insertion sequences that are permutations of each other with
pairwise distinct keys build the same Go map. -/
theorem mkGoMap_perm_eq (l1 l2 : List (List Nat × Bval)) (hperm : l1.Perm l2)
    (hnodup : (l1.map Prod.fst).Nodup) : mkGoMap l1 = mkGoMap l2 := by
  have hnodup2 : (l2.map Prod.fst).Nodup := ((hperm.map Prod.fst).nodup_iff).1 hnodup
  unfold mkGoMap
  apply entSorted_ext
  · exact mkGoMap_go_sorted l1 .nil trivial
  · exact mkGoMap_go_sorted l2 .nil trivial
  · intro x
    rw [mkGoMap_go_mem l1 .nil (by simpa [entriesKeys] using hnodup) x,
      mkGoMap_go_mem l2 .nil (by simpa [entriesKeys] using hnodup2) x]
    simp only [entMem]
    constructor
    · rintro (h | h)
      · cases h
      · exact Or.inr (hperm.mem_iff.1 h)
    · rintro (h | h)
      · cases h
      · exact Or.inr (hperm.mem_iff.2 h)

/-- C6: building a Go map from the same key-value bindings in any insertion
order and encoding it yields the same byte sequence, the encoder emits keys
in strictly ascending byte-lexicographic order, and the two concrete
two-entry dictionaries of the claim both encode to
d3:foo3:bar5:helloi52ee. -/
theorem bencode_canonical_dict_ordering (l1 l2 : List (List Nat × Bval))
    (hperm : l1.Perm l2) (hnodup : (l1.map Prod.fst).Nodup) :
    bencode (.dict (mkGoMap l1)) = bencode (.dict (mkGoMap l2)) ∧
    entSorted (mkGoMap l1) ∧
    bencode (.dict (mkGoMap [(bs "hello", .int 52), (bs "foo", .str (bs "bar"))])) =
      bencode (.dict (mkGoMap [(bs "foo", .str (bs "bar")), (bs "hello", .int 52)])) ∧
    bencode (.dict (mkGoMap [(bs "hello", .int 52), (bs "foo", .str (bs "bar"))])) =
      bs "d3:foo3:bar5:helloi52ee" := by
  refine ⟨?_, mkGoMap_go_sorted l1 .nil trivial, by decide, by decide⟩
  rw [mkGoMap_perm_eq l1 l2 hperm hnodup]

/-- C6 witness: the two concrete insertion orders of the claim are
permutations with distinct keys, and their encodings agree. -/
theorem bencode_canonical_dict_ordering_witness :
    [(bs "hello", Bval.int 52), (bs "foo", Bval.str (bs "bar"))].Perm
      [(bs "foo", Bval.str (bs "bar")), (bs "hello", Bval.int 52)] ∧
    (([(bs "hello", Bval.int 52), (bs "foo", Bval.str (bs "bar"))]).map Prod.fst).Nodup ∧
    bencode (.dict (mkGoMap [(bs "hello", .int 52), (bs "foo", .str (bs "bar"))])) =
      bencode (.dict (mkGoMap [(bs "foo", .str (bs "bar")), (bs "hello", .int 52)])) :=
  ⟨List.Perm.swap (bs "foo", Bval.str (bs "bar")) (bs "hello", Bval.int 52) [],
   by decide,
   (bencode_canonical_dict_ordering
     [(bs "hello", Bval.int 52), (bs "foo", Bval.str (bs "bar"))]
     [(bs "foo", Bval.str (bs "bar")), (bs "hello", Bval.int 52)]
     (List.Perm.swap (bs "foo", Bval.str (bs "bar")) (bs "hello", Bval.int 52) [])
     (by decide)).1⟩

/-! ## Claim C7: the round-trip law -/

/-- An atom: a byte string or an integer, within the Go int64 bounds that
strconv.Atoi re-parses without a range error. -/
def isAtom : Bval → Bool
  | .str s => decide (s.length < 2 ^ 63)
  | .int n => decide (-(2 ^ 63) ≤ n) && decide (n < 2 ^ 63)
  | _ => false

/-- All elements of a Go slice are atoms. -/
def blistAtoms : BList → Bool
  | .nil => true
  | .cons x xs => isAtom x && blistAtoms xs

/-- All entries carry a nonempty bounded key and an atom value. -/
def entriesAtoms : BEntries → Bool
  | .nil => true
  | .cons k v rest =>
    !decide (k = []) && decide (k.length < 2 ^ 63) && isAtom v && entriesAtoms rest

/-- Strictly ascending adjacent keys (the canonical-map invariant, as a
computable check). -/
def entSortedB : BEntries → Bool
  | .nil => true
  | .cons _ _ .nil => true
  | .cons k _ (.cons k' v' r') => keyLt k k' && entSortedB (.cons k' v' r')

/-- Flat bencode values: strings, integers, and lists or dictionaries whose
elements are atoms, with canonical dictionary keys and every length and
integer within int64 range. -/
def flatOK : Bval → Bool
  | .str s => decide (s.length < 2 ^ 63)
  | .int n => decide (-(2 ^ 63) ≤ n) && decide (n < 2 ^ 63)
  | .list xs => blistAtoms xs
  | .dict m => entSortedB m && entriesAtoms m

theorem natToDecGo_digits : ∀ f n c, c ∈ natToDecGo f n → 48 ≤ c ∧ c ≤ 57 := by
  intro f
  induction f with
  | zero => intro n c hc; simp [natToDecGo] at hc
  | succ f ih =>
    intro n c hc
    rw [natToDecGo] at hc
    by_cases h0 : n = 0
    · rw [if_pos h0] at hc
      simp at hc
    · rw [if_neg h0] at hc
      rcases List.mem_append.1 hc with h | h
      · exact ih _ _ h
      · have : c = n % 10 + 48 := by simpa using h
        have := Nat.mod_lt n (show 0 < 10 by norm_num)
        omega

theorem natToDec_digits : ∀ n c, c ∈ natToDec n → 48 ≤ c ∧ c ≤ 57 := by
  intro n c hc
  rw [natToDec] at hc
  by_cases h0 : n = 0
  · rw [if_pos h0] at hc
    simp at hc
    omega
  · rw [if_neg h0] at hc
    exact natToDecGo_digits _ _ _ hc

theorem natToDecGo_ne_nil (f n : Nat) (h0 : n ≠ 0) (hf : n < 10 ^ f) :
    natToDecGo f n ≠ [] := by
  cases f with
  | zero => simp at hf; omega
  | succ f =>
    rw [natToDecGo, if_neg h0]
    simp

theorem natToDec_ne_nil (n : Nat) : natToDec n ≠ [] := by
  rw [natToDec]
  by_cases h0 : n = 0
  · rw [if_pos h0]; simp
  · rw [if_neg h0]
    exact natToDecGo_ne_nil _ _ h0 (Nat.lt_pow_self (by norm_num) n |>.trans_le
      (Nat.pow_le_pow_right (by norm_num) (Nat.le_succ n)))

theorem parseDigitsAux_append1 (xs : List Nat) (acc c : Nat) :
    parseDigitsAux acc (xs ++ [c]) =
      match parseDigitsAux acc xs with
      | some m => if 48 ≤ c ∧ c ≤ 57 then some (m * 10 + (c - 48)) else none
      | none => none := by
  induction xs generalizing acc with
  | nil => simp [parseDigitsAux]
  | cons x xt ih =>
    rw [List.cons_append, parseDigitsAux]
    by_cases hx : 48 ≤ x ∧ x ≤ 57
    · rw [if_pos hx, ih, parseDigitsAux, if_pos hx]
    · rw [if_neg hx, parseDigitsAux, if_neg hx]

theorem parseDigitsAux_natToDecGo : ∀ f n acc, n < 10 ^ f →
    parseDigitsAux acc (natToDecGo f n) =
      some (acc * 10 ^ (natToDecGo f n).length + n) := by
  intro f
  induction f with
  | zero =>
    intro n acc h
    have : n = 0 := by simpa using h
    subst this
    simp [natToDecGo, parseDigitsAux]
  | succ f ih =>
    intro n acc h
    rw [natToDecGo]
    by_cases h0 : n = 0
    · subst h0
      simp [parseDigitsAux]
    · rw [if_neg h0, parseDigitsAux_append1]
      have hdiv : n / 10 < 10 ^ f := by
        rw [Nat.div_lt_iff_lt_mul (by norm_num)]
        calc n < 10 ^ (f + 1) := h
        _ = 10 ^ f * 10 := by ring
      rw [ih (n / 10) acc hdiv]
      have hd : 48 ≤ n % 10 + 48 ∧ n % 10 + 48 ≤ 57 := by
        have := Nat.mod_lt n (show 0 < 10 by norm_num)
        omega
      dsimp only
      rw [if_pos hd]
      have hlen : (natToDecGo f (n / 10) ++ [n % 10 + 48]).length =
          (natToDecGo f (n / 10)).length + 1 := by simp
      rw [hlen]
      congr 1
      have hmod := Nat.div_add_mod n 10
      ring_nf
      omega

theorem parseDigitsAux_natToDec (n : Nat) : parseDigitsAux 0 (natToDec n) = some n := by
  rw [natToDec]
  by_cases h0 : n = 0
  · subst h0
    rw [if_pos rfl]
    simp [parseDigitsAux]
  · rw [if_neg h0]
    have hlt : n < 10 ^ (n + 1) :=
      (Nat.lt_pow_self (by norm_num) n).trans_le
        (Nat.pow_le_pow_right (by norm_num) (Nat.le_succ n))
    rw [parseDigitsAux_natToDecGo (n + 1) n 0 hlt]
    simp

theorem atoi_natToDec (n : Nat) (h : n ≤ 2 ^ 63 - 1) : atoi (natToDec n) = .ok (n : Int) := by
  obtain ⟨c, cs, hD⟩ : ∃ c cs, natToDec n = c :: cs := by
    cases hE : natToDec n with
    | nil => exact absurd hE (natToDec_ne_nil n)
    | cons c cs => exact ⟨c, cs, rfl⟩
  have hdig : 48 ≤ c ∧ c ≤ 57 := natToDec_digits n c (by rw [hD]; simp)
  have hp : parseDigitsAux 0 (c :: cs) = some n := by
    rw [← hD]
    exact parseDigitsAux_natToDec n
  rw [hD, atoi]
  rw [if_neg (by omega : ¬ c = 43), if_neg (by omega : ¬ c = 45)]
  rw [hp]
  dsimp only
  rw [if_pos h]

theorem atoi_intToDec (n : Int) (h1 : -(2 ^ 63) ≤ n) (h2 : n < 2 ^ 63) :
    atoi (intToDec n) = .ok n := by
  rw [intToDec]
  by_cases hneg : n < 0
  · rw [if_pos hneg]
    obtain ⟨c, cs, hD⟩ : ∃ c cs, natToDec n.natAbs = c :: cs := by
      cases hE : natToDec n.natAbs with
      | nil => exact absurd hE (natToDec_ne_nil _)
      | cons c cs => exact ⟨c, cs, rfl⟩
    rw [hD, atoi]
    rw [if_neg (by norm_num : ¬ (45 : Nat) = 43), if_pos rfl]
    rw [if_neg (by simp : ¬ (c :: cs) = ([] : List Nat))]
    have hp : parseDigitsAux 0 (c :: cs) = some n.natAbs := by
      rw [← hD]
      exact parseDigitsAux_natToDec n.natAbs
    rw [hp]
    have hrange : n.natAbs ≤ 2 ^ 63 := by omega
    dsimp only
    rw [if_pos hrange]
    congr 1
    omega
  · rw [if_neg hneg]
    have hge : 0 ≤ n := by omega
    have : (n.toNat : Int) = n := Int.toNat_of_nonneg hge
    rw [atoi_natToDec n.toNat (by omega), this]

theorem firstIdxOf_append (c : Nat) (xs r : List Nat) (h : ∀ x ∈ xs, x ≠ c) :
    firstIdxOf c (xs ++ c :: r) = some xs.length := by
  induction xs with
  | nil => simp [firstIdxOf]
  | cons x xt ih =>
    rw [List.cons_append, firstIdxOf]
    rw [if_neg (h x (by simp))]
    rw [ih (fun y hy => h y (by simp [hy]))]
    simp

theorem intToDec_ne_e (n : Int) : ∀ c ∈ intToDec n, c ≠ 101 := by
  intro c hc
  rw [intToDec] at hc
  by_cases hneg : n < 0
  · rw [if_pos hneg] at hc
    rcases List.mem_cons.1 hc with rfl | hc
    · omega
    · have := natToDec_digits _ _ hc
      omega
  · rw [if_neg hneg] at hc
    have := natToDec_digits _ _ hc
    omega

/-- Decoding an encoded byte string at the head of any input consumes
exactly the encoding and returns the string. -/
theorem decode_str_head (s : List Nat) (hs : s.length < 2 ^ 63) (f : Nat) (t : List Nat) :
    decodeGo (f + 1) (.val (bencodeBytes s ++ t)) =
      .ok (.val (.str s) (bencodeBytes s).length) := by
  obtain ⟨d, ds, hD⟩ : ∃ d ds, natToDec s.length = d :: ds := by
    cases hE : natToDec s.length with
    | nil => exact absurd hE (natToDec_ne_nil _)
    | cons d ds => exact ⟨d, ds, rfl⟩
  have hdig : 48 ≤ d ∧ d ≤ 57 := natToDec_digits _ d (by rw [hD]; simp)
  have hnocolon : ∀ x ∈ d :: ds, x ≠ 58 := by
    intro x hx
    have := natToDec_digits s.length x (by rw [hD]; exact hx)
    omega
  have hscrut : bencodeBytes s ++ t = d :: (ds ++ 58 :: (s ++ t)) := by
    simp [bencodeBytes, hD]
  have hfci : firstIdxOf 58 (d :: (ds ++ 58 :: (s ++ t))) = some (ds.length + 1) := by
    have h2 := firstIdxOf_append 58 (d :: ds) (s ++ t) hnocolon
    rw [List.cons_append] at h2
    simpa using h2
  have htake : (d :: (ds ++ 58 :: (s ++ t))).take (ds.length + 1) = natToDec s.length := by
    rw [hD, List.take_succ_cons, List.take_left]
  have hdrop : (d :: (ds ++ 58 :: (s ++ t))).drop (ds.length + 1 + 1) = s ++ t := by
    rw [List.drop_succ_cons]
    have hre : ds ++ 58 :: (s ++ t) = (ds ++ [58]) ++ (s ++ t) := by simp
    rw [hre, List.drop_left' (by simp)]
  rw [hscrut, decodeGo]
  dsimp only
  rw [if_pos hdig, hfci]
  dsimp only [Option.getD_some]
  rw [htake, atoi_natToDec s.length (by omega)]
  dsimp only
  rw [if_neg (by simp : ¬ ((s.length : Nat) : Int) < 0)]
  rw [if_pos (by simp [Int.toNat_natCast]; omega :
    ds.length + 1 + 1 + ((s.length : Nat) : Int).toNat ≤ (d :: (ds ++ 58 :: (s ++ t))).length)]
  rw [Int.toNat_natCast, hdrop, List.take_left]
  have hcount : ds.length + 1 + 1 + s.length = (bencodeBytes s).length := by
    simp [bencodeBytes, hD]
    omega
  rw [hcount]

/-- Decoding an encoded integer at the head of any input consumes exactly
the encoding and returns the integer. -/
theorem decode_int_head (n : Int) (h1 : -(2 ^ 63) ≤ n) (h2 : n < 2 ^ 63)
    (f : Nat) (t : List Nat) :
    decodeGo (f + 1) (.val (bencodeInt n ++ t)) =
      .ok (.val (.int n) (bencodeInt n).length) := by
  have hscrut : bencodeInt n ++ t = 105 :: (intToDec n ++ 101 :: t) := by
    simp [bencodeInt]
  have hfei : firstIdxOf 101 (105 :: (intToDec n ++ 101 :: t)) =
      some ((intToDec n).length + 1) := by
    rw [firstIdxOf, if_neg (by norm_num : ¬ (105 : Nat) = 101),
      firstIdxOf_append 101 _ t (intToDec_ne_e n)]
    rfl
  have htake : ((105 :: (intToDec n ++ 101 :: t)).drop 1).take ((intToDec n).length + 1 - 1) =
      intToDec n := by
    rw [List.drop_succ_cons, List.drop_zero, Nat.add_sub_cancel, List.take_left]
  rw [hscrut, decodeGo]
  dsimp only
  rw [if_neg (by norm_num : ¬ (48 ≤ 105 ∧ 105 ≤ 57)), if_pos (rfl : (105 : Nat) = 105), hfei]
  dsimp only [Option.getD_some]
  rw [if_neg (by omega : ¬ (intToDec n).length + 1 = 0)]
  rw [htake, atoi_intToDec n h1 h2]
  have hcount : (intToDec n).length + 1 + 1 = (bencodeInt n).length := by
    simp [bencodeInt]
  rw [hcount]

/-- Decoding an encoded atom at the head of any input consumes exactly the
encoding and returns the atom. -/
theorem decode_atom_head (x : Bval) (hx : isAtom x = true) (f : Nat) (t : List Nat) :
    decodeGo (f + 1) (.val (bencode x ++ t)) = .ok (.val x (bencode x).length) := by
  cases x with
  | str s =>
    rw [isAtom, decide_eq_true_eq] at hx
    exact decode_str_head s hx f t
  | int n =>
    rw [isAtom, Bool.and_eq_true, decide_eq_true_eq, decide_eq_true_eq] at hx
    exact decode_int_head n hx.1 hx.2 f t
  | list xs => simp [isAtom] at hx
  | dict m => simp [isAtom] at hx

theorem blistAppend_nil : ∀ acc : BList, blistAppend acc .nil = acc := by
  intro acc
  induction acc using blistSpineInd with
  | hnil => rfl
  | hcons x rest ih => rw [blistAppend, ih]

theorem blistAppend_assoc : ∀ a b c : BList,
    blistAppend (blistAppend a b) c = blistAppend a (blistAppend b c) := by
  intro a
  induction a using blistSpineInd with
  | hnil => intro b c; rfl
  | hcons x rest ih => intro b c; rw [blistAppend, blistAppend, blistAppend, ih]

/-- The encoding of an atom is nonempty and does not begin with the list
and dictionary terminator byte e. -/
theorem bencode_head_ne_e (x : Bval) (hx : isAtom x = true) :
    ∃ c cs, bencode x = c :: cs ∧ c ≠ 101 := by
  cases x with
  | str s =>
    obtain ⟨d, ds, hD⟩ : ∃ d ds, natToDec s.length = d :: ds := by
      cases hE : natToDec s.length with
      | nil => exact absurd hE (natToDec_ne_nil _)
      | cons d ds => exact ⟨d, ds, rfl⟩
    have hdig := natToDec_digits s.length d (by rw [hD]; simp)
    exact ⟨d, ds ++ 58 :: s, by simp [bencode, bencodeBytes, hD], by omega⟩
  | int n => exact ⟨105, intToDec n ++ [101], by simp [bencode, bencodeInt], by norm_num⟩
  | list xs => simp [isAtom] at hx
  | dict m => simp [isAtom] at hx

/-- The list-branch loop over a run of encoded atoms followed by the
terminator: it appends the atoms to the accumulator in order and reports
the byte count of the run (the terminator itself is counted by the
caller). -/
theorem decode_lst_loop : ∀ (xs acc : BList) (t : List Nat) (f : Nat),
    blistAtoms xs = true → 2 * blistLen xs + 1 ≤ f →
    decodeGo f (.lst (bencodeList xs ++ 101 :: t) acc) =
      .ok (.lst (blistAppend acc xs) (bencodeList xs).length) := by
  intro xs
  induction xs using blistSpineInd with
  | hnil =>
    intro acc t f _ hf
    obtain ⟨f', rfl⟩ : ∃ f', f = f' + 1 := ⟨f - 1, by omega⟩
    rw [bencodeList, List.nil_append, decodeGo]
    rw [if_pos rfl, blistAppend_nil]
    rfl
  | hcons x rest ih =>
    intro acc t f hat hf
    rw [blistAtoms, Bool.and_eq_true] at hat
    obtain ⟨hx, hrest⟩ := hat
    rw [blistLen] at hf
    obtain ⟨f'', rfl⟩ : ∃ f'', f = f'' + 1 + 1 := ⟨f - 2, by omega⟩
    obtain ⟨c, cs, hcs, hc101⟩ := bencode_head_ne_e x hx
    have hscrut : bencodeList (.cons x rest) ++ 101 :: t =
        c :: (cs ++ (bencodeList rest ++ 101 :: t)) := by
      rw [bencodeList, hcs]
      simp
    have hscrut2 : c :: (cs ++ (bencodeList rest ++ 101 :: t)) =
        bencode x ++ (bencodeList rest ++ 101 :: t) := by
      rw [hcs]
      simp
    rw [hscrut, decodeGo]
    rw [if_neg hc101, hscrut2, decode_atom_head x hx f'' _]
    dsimp only
    rw [if_pos (by simp : (bencode x).length ≤ (bencode x ++ (bencodeList rest ++ 101 :: t)).length)]
    rw [List.drop_left]
    rw [ih (blistAppend acc (.cons x .nil)) t (f'' + 1) hrest (by omega)]
    dsimp only
    rw [blistAppend_assoc]
    have hlen : (bencode x).length + (bencodeList rest).length =
        (bencodeList (.cons x rest)).length := by
      rw [bencodeList]
      simp
    rw [hlen]
    rfl

/-- Concatenation of entry lists. -/
def entAppend : BEntries → BEntries → BEntries
  | .nil, e => e
  | .cons k v rest, e => .cons k v (entAppend rest e)

/-- The dictionary-branch loop state after inserting every entry of the
second list, left to right, into the accumulated map. -/
def entriesInsertAll : BEntries → BEntries → BEntries
  | acc, .nil => acc
  | acc, .cons k v rest => entriesInsertAll (entriesInsert k v acc) rest

theorem entAppend_nil : ∀ acc : BEntries, entAppend acc .nil = acc := by
  intro acc
  induction acc using entSpineInd with
  | hnil => rfl
  | hcons k v rest ih => rw [entAppend, ih]

theorem entAppend_snoc : ∀ (a : BEntries) (k : List Nat) (v : Bval) (b : BEntries),
    entAppend (entAppend a (.cons k v .nil)) b = entAppend a (.cons k v b) := by
  intro a
  induction a using entSpineInd with
  | hnil => intro k v b; rfl
  | hcons k' v' rest ih => intro k v b; rw [entAppend, entAppend, entAppend, ih]

theorem entriesKeys_entAppend : ∀ a b : BEntries,
    entriesKeys (entAppend a b) = entriesKeys a ++ entriesKeys b := by
  intro a
  induction a using entSpineInd with
  | hnil => intro b; rfl
  | hcons k v rest ih => intro b; rw [entAppend, entriesKeys, entriesKeys, ih]; rfl

theorem entriesInsert_at_end : ∀ (acc : BEntries) (k : List Nat) (v : Bval),
    (∀ q ∈ entriesKeys acc, keyLt q k = true) →
    entriesInsert k v acc = entAppend acc (.cons k v .nil) := by
  intro acc
  induction acc using entSpineInd with
  | hnil => intro k v _; rfl
  | hcons k' v' rest ih =>
    intro k v h
    have hk'k : keyLt k' k = true := h k' (by simp [entriesKeys])
    have hlt : keyLt k k' = false := keyLt_asymm _ _ hk'k
    have hne : k ≠ k' := by
      intro heq
      subst heq
      rw [keyLt_irrefl] at hk'k
      cases hk'k
    rw [entriesInsert, if_neg (by simp [hlt]), if_neg hne, entAppend]
    rw [ih k v (fun q hq => h q (by simp [entriesKeys, hq]))]

theorem entSortedB_tail (k : List Nat) (v : Bval) (rest : BEntries)
    (h : entSortedB (.cons k v rest) = true) : entSortedB rest = true := by
  revert h
  induction rest using entSpineInd with
  | hnil => intro h; rfl
  | hcons k' v' r' _ =>
    intro h
    rw [entSortedB] at h
    simp only [Bool.and_eq_true] at h
    exact h.2

theorem entSortedB_all : ∀ (rest : BEntries) (k : List Nat) (v : Bval),
    entSortedB (.cons k v rest) = true → ∀ q ∈ entriesKeys rest, keyLt k q = true := by
  intro rest
  induction rest using entSpineInd with
  | hnil => intro k v _ q hq; simp [entriesKeys] at hq
  | hcons k' v' r' ih =>
    intro k v h q hq
    rw [entSortedB] at h
    simp only [Bool.and_eq_true] at h
    obtain ⟨hkk', hrest⟩ := h
    rcases List.mem_cons.1 hq with rfl | hq
    · exact hkk'
    · exact keyLt_trans _ _ _ hkk' (ih k' v' hrest q hq)

theorem entriesInsertAll_rebuild : ∀ (es acc : BEntries),
    (∀ qa ∈ entriesKeys acc, ∀ qb ∈ entriesKeys es, keyLt qa qb = true) →
    entSortedB es = true → entriesInsertAll acc es = entAppend acc es := by
  intro es
  induction es using entSpineInd with
  | hnil => intro acc _ _; rw [entriesInsertAll, entAppend_nil]
  | hcons k v rest ih =>
    intro acc h hsort
    rw [entriesInsertAll]
    have hins : entriesInsert k v acc = entAppend acc (.cons k v .nil) :=
      entriesInsert_at_end acc k v (fun q hq => h q hq k (by simp [entriesKeys]))
    rw [hins]
    rw [ih (entAppend acc (.cons k v .nil)) ?_ (entSortedB_tail k v rest hsort)]
    · exact entAppend_snoc acc k v rest
    · intro qa hqa qb hqb
      rw [entriesKeys_entAppend] at hqa
      rcases List.mem_append.1 hqa with hqa | hqa
      · exact h qa hqa qb (by simp [entriesKeys, hqb])
      · have hqak : qa = k := by simpa [entriesKeys] using hqa
        rw [hqak]
        exact entSortedB_all rest k v hsort qb hqb

/-- The dictionary-branch loop over a run of encoded entries followed by
the terminator: each key (a string) is decoded, then its value, and the
pair is assigned into the accumulated map; the byte count of the run is
reported. -/
theorem decode_dct_loop : ∀ (es acc : BEntries) (t : List Nat) (f : Nat),
    entriesAtoms es = true → 4 * entriesLen es + 1 ≤ f →
    decodeGo f (.dct (bencodeEntries es ++ 101 :: t) [] acc) =
      .ok (.dct (entriesInsertAll acc es) (bencodeEntries es).length) := by
  intro es
  induction es using entSpineInd with
  | hnil =>
    intro acc t f _ hf
    obtain ⟨f', rfl⟩ : ∃ f', f = f' + 1 := ⟨f - 1, by omega⟩
    rw [bencodeEntries, List.nil_append, decodeGo]
    rw [if_pos rfl]
    rfl
  | hcons k v rest ih =>
    intro acc t f hat hf
    rw [entriesAtoms] at hat
    simp only [Bool.and_eq_true, Bool.not_eq_true', decide_eq_false_iff_not,
      decide_eq_true_eq] at hat
    obtain ⟨⟨⟨hkne, hklen⟩, hv⟩, hrest⟩ := hat
    rw [entriesLen] at hf
    obtain ⟨g, rfl⟩ : ∃ g, f = g + 2 + 1 := ⟨f - 3, by omega⟩
    obtain ⟨c, cs, hcs, hc101⟩ := bencode_head_ne_e (.str k) (by simp only [isAtom, decide_eq_true_eq]; omega)
    rw [show bencode (.str k) = bencodeBytes k from rfl] at hcs
    have hscrut : bencodeEntries (.cons k v rest) ++ 101 :: t =
        c :: (cs ++ (bencode v ++ (bencodeEntries rest ++ 101 :: t))) := by
      rw [bencodeEntries, hcs]
      simp
    have hscrut2 : c :: (cs ++ (bencode v ++ (bencodeEntries rest ++ 101 :: t))) =
        bencodeBytes k ++ (bencode v ++ (bencodeEntries rest ++ 101 :: t)) := by
      rw [hcs]
      simp
    rw [hscrut, decodeGo]
    rw [if_neg hc101, hscrut2, decode_str_head k hklen (g + 1) _]
    dsimp only
    rw [if_pos (by simp :
      (bencodeBytes k).length ≤
        (bencodeBytes k ++ (bencode v ++ (bencodeEntries rest ++ 101 :: t))).length)]
    rw [if_pos rfl]
    rw [List.drop_left]
    obtain ⟨c2, cs2, hcs2, hc2101⟩ := bencode_head_ne_e v hv
    have hscrut3 : bencode v ++ (bencodeEntries rest ++ 101 :: t) =
        c2 :: (cs2 ++ (bencodeEntries rest ++ 101 :: t)) := by
      rw [hcs2]
      simp
    have hscrut4 : c2 :: (cs2 ++ (bencodeEntries rest ++ 101 :: t)) =
        bencode v ++ (bencodeEntries rest ++ 101 :: t) := by
      rw [hcs2]
      simp
    rw [hscrut3, decodeGo]
    rw [if_neg hc2101, hscrut4, decode_atom_head v hv g _]
    dsimp only
    rw [if_pos (by simp :
      (bencode v).length ≤ (bencode v ++ (bencodeEntries rest ++ 101 :: t)).length)]
    rw [if_neg hkne]
    rw [List.drop_left]
    rw [ih (entriesInsert k v acc) t (g + 1) hrest (by omega)]
    dsimp only
    rw [entriesInsertAll]
    have hlen : (bencodeBytes k).length + ((bencode v).length + (bencodeEntries rest).length) =
        (bencodeEntries (.cons k v rest)).length := by
      rw [bencodeEntries]
      simp
    rw [hlen]

theorem bencodeBytes_length_ge2 (s : List Nat) : 2 ≤ (bencodeBytes s).length := by
  have h1 : 1 ≤ (natToDec s.length).length :=
    List.length_pos.2 (natToDec_ne_nil _)
  simp only [bencodeBytes, List.length_append, List.length_cons]
  omega

theorem bencode_length_pos : ∀ x : Bval, 1 ≤ (bencode x).length := by
  intro x
  cases x with
  | str s => exact le_trans (by norm_num) (bencodeBytes_length_ge2 s)
  | int n => simp [bencode, bencodeInt]
  | list xs => simp [bencode]
  | dict m => simp [bencode]

theorem blistLen_le_bencodeList : ∀ xs : BList, blistLen xs ≤ (bencodeList xs).length := by
  intro xs
  induction xs using blistSpineInd with
  | hnil => simp [blistLen, bencodeList]
  | hcons x rest ih =>
    rw [blistLen, bencodeList]
    have := bencode_length_pos x
    simp only [List.length_append]
    omega

theorem entriesLen_le_bencodeEntries : ∀ es : BEntries,
    2 * entriesLen es ≤ (bencodeEntries es).length := by
  intro es
  induction es using entSpineInd with
  | hnil => simp [entriesLen, bencodeEntries]
  | hcons k v rest ih =>
    rw [entriesLen, bencodeEntries]
    have h1 := bencodeBytes_length_ge2 k
    have h2 := bencode_length_pos v
    simp only [List.length_append]
    omega

/-- Decoding the encoding of an atom at the top level returns the atom and
its full encoded length. -/
theorem decodeBencode_atom (x : Bval) (hx : isAtom x = true) :
    decodeBencode (bencode x) = .ok (x, (bencode x).length) := by
  rw [decodeBencode]
  rw [show 2 * (bencode x).length + 2 = (2 * (bencode x).length + 1) + 1 from rfl]
  have hdec := decode_atom_head x hx (2 * (bencode x).length + 1) []
  rw [List.append_nil] at hdec
  rw [hdec]

/-- Decoding the encoding of a flat list at the top level returns the list;
the reported count misses the leading l byte. -/
theorem decodeBencode_flat_list (xs : BList) (h : blistAtoms xs = true) :
    decodeBencode (bencode (.list xs)) = .ok (.list xs, (bencodeList xs).length + 1) := by
  rw [decodeBencode]
  rw [show 2 * (bencode (.list xs)).length + 2 = (2 * (bencode (.list xs)).length + 1) + 1
    from rfl]
  rw [show bencode (.list xs) = 108 :: (bencodeList xs ++ [101]) from rfl]
  rw [decodeGo]
  rw [if_neg (by norm_num : ¬ (48 ≤ 108 ∧ 108 ≤ 57)),
    if_neg (by norm_num : ¬ (108 : Nat) = 105), if_pos (rfl : (108 : Nat) = 108)]
  rw [List.drop_succ_cons, List.drop_zero]
  have hfuel : 2 * blistLen xs + 1 ≤ 2 * ((108 : Nat) :: (bencodeList xs ++ [101])).length + 1 := by
    have h1 := blistLen_le_bencodeList xs
    simp only [List.length_cons, List.length_append, List.length_singleton]
    omega
  rw [decode_lst_loop xs .nil [] (2 * ((108 : Nat) :: (bencodeList xs ++ [101])).length + 1) h hfuel]
  rfl

/-- Decoding the encoding of a flat canonical dictionary at the top level
rebuilds the same canonical map; the reported count misses the leading d
byte. -/
theorem decodeBencode_flat_dict (m : BEntries) (hat : entriesAtoms m = true)
    (hsort : entSortedB m = true) :
    decodeBencode (bencode (.dict m)) = .ok (.dict m, (bencodeEntries m).length + 1) := by
  rw [decodeBencode]
  rw [show 2 * (bencode (.dict m)).length + 2 = (2 * (bencode (.dict m)).length + 1) + 1
    from rfl]
  rw [show bencode (.dict m) = 100 :: (bencodeEntries m ++ [101]) from rfl]
  rw [decodeGo]
  rw [if_neg (by norm_num : ¬ (48 ≤ 100 ∧ 100 ≤ 57)),
    if_neg (by norm_num : ¬ (100 : Nat) = 105), if_neg (by norm_num : ¬ (100 : Nat) = 108),
    if_pos (rfl : (100 : Nat) = 100)]
  rw [List.drop_succ_cons, List.drop_zero]
  have hfuel : 4 * entriesLen m + 1 ≤ 2 * ((100 : Nat) :: (bencodeEntries m ++ [101])).length + 1 := by
    have h1 := entriesLen_le_bencodeEntries m
    simp only [List.length_cons, List.length_append, List.length_singleton]
    omega
  rw [decode_dct_loop m .nil [] (2 * ((100 : Nat) :: (bencodeEntries m ++ [101])).length + 1) hat hfuel]
  have hreb : entriesInsertAll .nil m = m := by
    rw [entriesInsertAll_rebuild m .nil (by intro qa hqa; simp [entriesKeys] at hqa) hsort]
    rfl
  rw [hreb]

/-- C7 counterexample: for the nested value, a list holding the list of the
string hello followed by the string world, the decoder silently drops the
trailing sibling (the inner list reports a consumed count that omits its
leading l byte, so the outer loop lands on the inner terminator and stops),
and re-encoding what decode returned does not reproduce the original
encoding. -/
theorem roundtrip_fails_on_nested_value :
    (decodeBencode (bencode (.list (.cons (.list (.cons (.str (bs "hello")) .nil))
        (.cons (.str (bs "world")) .nil))))).map (fun p => bencode p.1) ≠
      .ok (bencode (.list (.cons (.list (.cons (.str (bs "hello")) .nil))
        (.cons (.str (bs "world")) .nil)))) := by
  decide

/-- C7 (amended): the round-trip law holds for every flat value - a byte
string, an integer, a list of such atoms, or a dictionary with canonical
(strictly ascending) nonempty keys and atom values, all lengths and
integers within int64 range - re-encoding the decoded value reproduces the
original encoding byte for byte.  (For nested containers the law fails on
this code, see the counterexample: container consumed counts omit the
leading type byte, which desynchronizes the enclosing loop.) -/
theorem decode_bencode_roundtrip_flat (v : Bval) (h : flatOK v = true) :
    (decodeBencode (bencode v)).map (fun p => bencode p.1) = .ok (bencode v) := by
  cases v with
  | str s =>
    rw [decodeBencode_atom (.str s) (by simpa [flatOK, isAtom] using h)]
    rfl
  | int n =>
    rw [decodeBencode_atom (.int n) (by simpa [flatOK, isAtom] using h)]
    rfl
  | list xs =>
    rw [decodeBencode_flat_list xs (by simpa [flatOK] using h)]
    rfl
  | dict m =>
    rw [flatOK, Bool.and_eq_true] at h
    rw [decodeBencode_flat_dict m h.2 h.1]
    rfl

/-- C7 witness: the round-trip law at the concrete flat dictionary with
keys foo and hello. -/
theorem decode_bencode_roundtrip_flat_witness :
    flatOK (.dict (.cons (bs "foo") (.str (bs "bar"))
      (.cons (bs "hello") (.int 52) .nil))) = true ∧
    (decodeBencode (bencode (.dict (.cons (bs "foo") (.str (bs "bar"))
      (.cons (bs "hello") (.int 52) .nil))))).map (fun p => bencode p.1) =
      .ok (bencode (.dict (.cons (bs "foo") (.str (bs "bar"))
        (.cons (bs "hello") (.int 52) .nil)))) :=
  ⟨by decide, decode_bencode_roundtrip_flat _ (by decide)⟩

/-! ## Claim C2: the integrity check of the piece downloader -/

theorem sha1Bytes_length (msg : List Nat) : (sha1Bytes msg).length = 20 := by
  simp [sha1Bytes, wordBytes]

theorem hexStr_length (s : List Nat) : (hexStr s).length = 2 * s.length := by
  induction s with
  | nil => rfl
  | cons a t ih =>
    simp only [hexStr, List.map_cons, List.flatten_cons, List.length_append,
      List.length_cons] at *
    simp only [hexByte, List.length_cons, List.length_nil]
    omega

theorem pieceHashesGo_mod41 : ∀ f s r, pieceHashesGo f s = .ok r → r.length % 41 = 0 := by
  intro f
  induction f with
  | zero =>
    intro s r h
    simp [pieceHashesGo] at h
  | succ f ih =>
    intro s r h
    rw [pieceHashesGo] at h
    by_cases h0 : s.length = 0
    · rw [if_pos h0] at h
      injection h with h
      rw [← h]
      rfl
    · rw [if_neg h0] at h
      by_cases h20 : s.length < eachPieceSize
      · rw [if_pos h20] at h
        exact absurd h (by simp)
      · rw [if_neg h20] at h
        cases hrec : pieceHashesGo f (s.drop eachPieceSize) with
        | error e => rw [hrec] at h; exact absurd h (by simp)
        | ok rest =>
          rw [hrec] at h
          injection h with h
          have h1 := ih _ _ hrec
          have h2 : (s.take eachPieceSize).length = 20 := by
            rw [List.length_take]
            simp only [eachPieceSize] at h20 ⊢
            omega
          rw [← h]
          simp only [List.length_append, hexStr_length, h2, List.length_cons]
          omega

/-- C2 (refuted; the code is at fault, as its own ToDo comment admits): the
downloader compares sumStr, the raw 20-byte SHA-1 digest of the assembled
buffer, against Info.PieceHashes, the newline-terminated lowercase-hex dump
of the whole piece table (41 bytes per piece); a 20-byte string never
equals a string whose length is a multiple of 41, so the check fails on
every input, valid blocks included, and no output file is ever written. -/
theorem integrity_check_never_passes (combined pieces ph : List Nat)
    (h : pieceHashesOf pieces = .ok ph) : sha1Bytes combined ≠ ph := by
  intro hEq
  have h1 := sha1Bytes_length combined
  have h2 := pieceHashesGo_mod41 _ _ _ h
  rw [hEq] at h1
  omega

/-- C2 witness: a concrete one-piece table whose PieceHashes rendering the
digest of the (empty) assembled buffer does not match. -/
theorem integrity_check_never_passes_witness :
    pieceHashesOf (List.replicate 20 65) =
      .ok (bs "4141414141414141414141414141414141414141" ++ [10]) ∧
    sha1Bytes [] ≠ bs "4141414141414141414141414141414141414141" ++ [10] :=
  ⟨by decide, integrity_check_never_passes [] (List.replicate 20 65) _ (by decide)⟩

/-! ## Claim C8: metainfo error handling -/

/-- C8 (refuted; the code is at fault): the claim says a missing or wrongly
typed required key yields a MissingField error and a piece table whose
length is not a multiple of 20 yields an InvalidPieceTable error.  The code
has no such error values: a missing key makes the Go type assertion panic
(here, on the empty dictionary torrent de), and a 10-byte pieces string
makes the hash-table slicing loop panic out of range; neither is a returned
error. -/
theorem parseToInfo_panics_not_errors :
    parseToInfo (bs "de") = .error .panicTypeAssert ∧
    parseToInfo
      (bs "d8:announce3:abc4:infod6:lengthi1e12:piece lengthi1e6:pieces10:0123456789ee") =
      .error .panicOOB := by
  decide

/-! ## Claim C9: the info-hash depends only on the info dictionary -/

theorem parseToInfo_infoHash_shape (t : List Nat) (h : (parseToInfo t).isOk = true) :
    ∃ m, infoDictOf t = some (.dict m) ∧
      infoHashOf t = .ok (sha1Bytes (bencode (.dict m))) := by
  cases hdec : decodeBencode t with
  | error e => simp [parseToInfo, hdec, Except.isOk, Except.toBool] at h
  | ok p =>
    obtain ⟨v, n⟩ := p
    cases v with
    | str s => simp [parseToInfo, hdec, Except.isOk, Except.toBool] at h
    | int i => simp [parseToInfo, hdec, Except.isOk, Except.toBool] at h
    | list l => simp [parseToInfo, hdec, Except.isOk, Except.toBool] at h
    | dict top =>
      cases hinfo : entriesLookup top (bs "info") with
      | none => simp [parseToInfo, hdec, hinfo, Except.isOk, Except.toBool] at h
      | some iv =>
        cases iv with
        | str s => simp [parseToInfo, hdec, hinfo, Except.isOk, Except.toBool] at h
        | int i => simp [parseToInfo, hdec, hinfo, Except.isOk, Except.toBool] at h
        | list l => simp [parseToInfo, hdec, hinfo, Except.isOk, Except.toBool] at h
        | dict metaInfo =>
          cases hann : entriesLookup top (bs "announce") with
          | none => simp [parseToInfo, hdec, hinfo, hann, Except.isOk, Except.toBool] at h
          | some av =>
            cases av with
            | int i => simp [parseToInfo, hdec, hinfo, hann, Except.isOk, Except.toBool] at h
            | list l => simp [parseToInfo, hdec, hinfo, hann, Except.isOk, Except.toBool] at h
            | dict d => simp [parseToInfo, hdec, hinfo, hann, Except.isOk, Except.toBool] at h
            | str announce =>
              cases hlen : entriesLookup metaInfo (bs "length") with
              | none => simp [parseToInfo, hdec, hinfo, hann, hlen, Except.isOk, Except.toBool] at h
              | some lv =>
                cases lv with
                | str s => simp [parseToInfo, hdec, hinfo, hann, hlen, Except.isOk, Except.toBool] at h
                | list l => simp [parseToInfo, hdec, hinfo, hann, hlen, Except.isOk, Except.toBool] at h
                | dict d => simp [parseToInfo, hdec, hinfo, hann, hlen, Except.isOk, Except.toBool] at h
                | int len =>
                  cases hplen : entriesLookup metaInfo (bs "piece length") with
                  | none =>
                      simp [parseToInfo, hdec, hinfo, hann, hlen, hplen, Except.isOk, Except.toBool] at h
                  | some pv =>
                    cases pv with
                    | str s =>
                        simp [parseToInfo, hdec, hinfo, hann, hlen, hplen, Except.isOk, Except.toBool] at h
                    | list l =>
                        simp [parseToInfo, hdec, hinfo, hann, hlen, hplen, Except.isOk, Except.toBool] at h
                    | dict d =>
                        simp [parseToInfo, hdec, hinfo, hann, hlen, hplen, Except.isOk, Except.toBool] at h
                    | int plen =>
                      cases hpieces : entriesLookup metaInfo (bs "pieces") with
                      | none =>
                          simp [parseToInfo, hdec, hinfo, hann, hlen, hplen, hpieces,
                            Except.isOk, Except.toBool] at h
                      | some wv =>
                        cases wv with
                        | int i =>
                            simp [parseToInfo, hdec, hinfo, hann, hlen, hplen, hpieces,
                              Except.isOk, Except.toBool] at h
                        | list l =>
                            simp [parseToInfo, hdec, hinfo, hann, hlen, hplen, hpieces,
                              Except.isOk, Except.toBool] at h
                        | dict d =>
                            simp [parseToInfo, hdec, hinfo, hann, hlen, hplen, hpieces,
                              Except.isOk, Except.toBool] at h
                        | str pieceStr =>
                          cases hph : pieceHashesOf pieceStr with
                          | error e =>
                              simp [parseToInfo, hdec, hinfo, hann, hlen, hplen, hpieces,
                                hph, Except.isOk, Except.toBool] at h
                          | ok ph =>
                            refine ⟨metaInfo, ?_, ?_⟩
                            · simp [infoDictOf, hdec, hinfo]
                            · simp [infoHashOf, parseToInfo, hdec, hinfo, hann, hlen,
                                hplen, hpieces, hph, Except.map]

/-- C9: the derivation of the info-hash is a pure function of the torrent
bytes (re-deriving from identical bytes yields identical hashes), and on
any two torrent files that parse successfully and whose info
sub-dictionaries decode to the same value, the derived info-hashes
coincide, whatever the rest of the files (announce included) contains: the
hash reads nothing outside the canonical re-encoding of the decoded info
dictionary. -/
theorem infoHash_depends_only_on_info :
    (∀ t1 t2 : List Nat, t1 = t2 → infoHashOf t1 = infoHashOf t2) ∧
    ∀ t1 t2 : List Nat, (parseToInfo t1).isOk = true → (parseToInfo t2).isOk = true →
      infoDictOf t1 = infoDictOf t2 → infoHashOf t1 = infoHashOf t2 := by
  refine ⟨fun t1 t2 h => by rw [h], fun t1 t2 h1 h2 hinfo => ?_⟩
  obtain ⟨m1, hm1, hh1⟩ := parseToInfo_infoHash_shape t1 h1
  obtain ⟨m2, hm2, hh2⟩ := parseToInfo_infoHash_shape t2 h2
  rw [hm1, hm2] at hinfo
  injection hinfo with hinfo
  injection hinfo with hinfo
  rw [hh1, hh2, hinfo]

/-- C9 witness: two concrete torrents that differ only in their announce
strings have provably equal info dictionaries and hence equal info-hashes. -/
theorem infoHash_depends_only_on_info_witness :
    (parseToInfo (bs "d8:announce3:abc4:infod6:lengthi1e12:piece lengthi1e6:pieces20:aaaaaaaaaaaaaaaaaaaaee")).isOk = true ∧
    (parseToInfo (bs "d8:announce4:wxyz4:infod6:lengthi1e12:piece lengthi1e6:pieces20:aaaaaaaaaaaaaaaaaaaaee")).isOk = true ∧
    infoHashOf (bs "d8:announce3:abc4:infod6:lengthi1e12:piece lengthi1e6:pieces20:aaaaaaaaaaaaaaaaaaaaee") =
      infoHashOf (bs "d8:announce4:wxyz4:infod6:lengthi1e12:piece lengthi1e6:pieces20:aaaaaaaaaaaaaaaaaaaaee") :=
  ⟨by decide, by decide,
   infoHash_depends_only_on_info.2 _ _ (by decide) (by decide) (by decide)⟩
